import Mathlib

/-!
Verification of `clang-tidy-to-junit.py`.

The program converts clang-tidy textual output into a JUnit XML report.
This file gives a shallow embedding of the source: strings are `List Char`,
the three compiled regular expressions are modelled by executable matching
functions specialised to their (deterministic) patterns, `logging.warning`
calls are recorded in a `warnings` list, and the Python exception that
`int()` could raise is modelled by `Option`.  The mutable class attribute
`ClangTidyConverter.errors` is modelled by threading the error list through
`convert` explicitly, with `errorsInit` as the value the process starts with.
-/

/-- Models Python `\w` (restricted to ASCII, which covers clang-tidy output):
a letter, a digit or an underscore. -/
def isWordChar (c : Char) : Bool :=
  c.isAlpha || c.isDigit || c = '_'

/-- Character class `[\w\/\.\-\ ]` of group 1 of `error_regex`. -/
def isPathChar (c : Char) : Bool :=
  isWordChar c || c = '/' || c = '.' || c = '-' || c = ' '

/-- Character class `[\w\-,\.]` inside the bracket tag of `error_regex`
and of `main_error_identifier`. -/
def isTagChar (c : Char) : Bool :=
  isWordChar c || c = '-' || c = ',' || c = '.'

/-- Python `$` (without `re.M` as a compile flag) matches at the end of the
string or just before one final newline; matching against a line therefore
operates on the line with one trailing newline removed. -/
def stripNl (l : List Char) : List Char :=
  if l.getLast? = some '\n' then l.dropLast else l

/-- `startsWithL pre s` is true when `pre` is a prefix of `s`. -/
def startsWithL : List Char → List Char → Bool
  | [], _ => true
  | _ :: _, [] => false
  | p :: ps, c :: cs => p = c && startsWithL ps cs

/-- The groups captured by `error_regex`:
`^([\w\/\.\-\ ]+):(\d+):(\d+): (.+) (\[[\w\-,\.]+\])$`. -/
structure HeaderGroups where
  path : List Char
  lineNo : List Char
  colNo : List Char
  msg : List Char
  tag : List Char
deriving DecidableEq

/-- Splits the part after `: ` of a header line into the `(.+)` message and
the `(\[[\w\-,\.]+\])$` bracket tag.  The regex is deterministic here: the
tag's characters exclude `[` and `]`, so the bracket tag anchored at the end
of the line is unique when it exists, and it must be preceded by a space. -/
def splitMsgTag (t : List Char) : Option (List Char × List Char) :=
  match t.reverse with
  | ']' :: rrest =>
    let rtcs := rrest.takeWhile isTagChar
    if rtcs.isEmpty then none
    else
      match rrest.drop rtcs.length with
      | '[' :: ' ' :: rmsg =>
        if rmsg.isEmpty then none
        else if rmsg.any (· = '\n') then none
        else some (rmsg.reverse, '[' :: (rtcs.reverse ++ [']']))
      | _ => none
  | _ => none

/-- Model of `error_regex.match(line)`.  The pattern is anchored at the
start (`re.match` plus `^`) and at the end (`$`, i.e. at the end of the
line body once a single trailing newline is stripped).  Every character
class of the pattern excludes `:` respectively stops at the next
delimiter, so greedy matching is deterministic and computable by
`takeWhile`. -/
def error_regex_match (line : List Char) : Option HeaderGroups :=
  if ((stripNl line).takeWhile isPathChar).isEmpty then none
  else
    match (stripNl line).drop ((stripNl line).takeWhile isPathChar).length with
    | ':' :: r1 =>
      if (r1.takeWhile Char.isDigit).isEmpty then none
      else
        match r1.drop (r1.takeWhile Char.isDigit).length with
        | ':' :: r2 =>
          if (r2.takeWhile Char.isDigit).isEmpty then none
          else
            match r2.drop (r2.takeWhile Char.isDigit).length with
            | ':' :: ' ' :: rest =>
              match splitMsgTag rest with
              | some (msg, tag) =>
                some ⟨(stripNl line).takeWhile isPathChar, r1.takeWhile Char.isDigit,
                      r2.takeWhile Char.isDigit, msg, tag⟩
              | none => none
            | _ => none
        | _ => none
    | _ => none

/-- `locAt l` is true when `:\d+:\d+:` matches at the first position of `l`
(the body of `start_regex.search`). -/
def locAt : List Char → Bool
  | ':' :: r1 =>
    let d1 := r1.takeWhile Char.isDigit
    !d1.isEmpty &&
      (match r1.drop d1.length with
       | ':' :: r2 =>
         let d2 := r2.takeWhile Char.isDigit
         !d2.isEmpty &&
           (match r2.drop d2.length with
            | ':' :: _ => true
            | _ => false)
       | _ => false)
  | _ => false

/-- Model of `start_regex.search(line)`: does `:\d+:\d+:` occur anywhere? -/
def start_found : List Char → Bool
  | [] => false
  | c :: rest => locAt (c :: rest) || start_found rest

/-- `tagAt l` is true when the whole of `l` is `\[[\w\-,\.]+\]` — i.e. the
pattern `\[[\w\-,\.]+\]$` matches at the first position of `l`, `l` being a
suffix of the line body. -/
def tagAt : List Char → Bool
  | '[' :: rest =>
    let tcs := rest.takeWhile isTagChar
    !tcs.isEmpty && rest.drop tcs.length == [']']
  | _ => false

/-- Does `\[[\w\-,\.]+\]$` match at some position of `l`? -/
def tagFound : List Char → Bool
  | [] => false
  | c :: rest => tagAt (c :: rest) || tagFound rest

/-- Model of `main_error_identifier.search(line, re.M)`.  `re.M` is the
integer 8 and is passed as the `pos` argument of `re.Pattern.search`, so
the search for the bracket tag starts at character offset 8. -/
def main_error_identifier_search8 (line : List Char) : Bool :=
  tagFound ((stripNl line).drop 8)

/-- The gate of `ClangTidyConverter.convert` that opens a new diagnostic:
the line is file-related (`start_regex.search`) and the bracket-tag search
from offset 8 (`main_error_identifier.search(line, re.M)`) succeeds. -/
def opensNew (line : List Char) : Bool :=
  start_found line && main_error_identifier_search8 line

/-- Value of `int(s)` for a string of decimal digits (accumulator form). -/
def digitsToNat : List Char → Nat → Nat
  | [], acc => acc
  | c :: r, acc => digitsToNat r (acc * 10 + (c.toNat - '0'.toNat))

/-- Model of Python `int()` on the strings `process_error` feeds it: the
regex captures `(\d+)`, which are nonempty digit strings; on anything else
the model is undefined (`none`), standing for the `ValueError` that would
abort the run. -/
def pyInt (s : List Char) : Option Nat :=
  if !s.isEmpty && s.all Char.isDigit then some (digitsToNat s 0) else none

/-- One step of `str.replace(old, "")` with `old = o :: ot`, fuelled to keep
the recursion structural; Python's `replace` scans left to right and removes
every non-overlapping occurrence. -/
def removeOccF (o : Char) (ot : List Char) : Nat → List Char → List Char
  | _, [] => []
  | 0, s => s
  | fuel + 1, c :: rest =>
    if startsWithL (o :: ot) (c :: rest) then removeOccF o ot fuel (rest.drop ot.length)
    else c :: removeOccF o ot fuel rest

/-- Model of `s.replace(old, "")`: every literal occurrence of `old` is
removed, scanning left to right without overlap.  `s.length` is enough fuel
because each step consumes at least one character. -/
def pyReplace (s old : List Char) : List Char :=
  match old with
  | [] => s
  | o :: ot => removeOccF o ot s.length s

/-- `occursIn old s` is true when `old` occurs as a contiguous substring. -/
def occursIn (old : List Char) : List Char → Bool
  | [] => false
  | c :: rest => startsWithL old (c :: rest) || occursIn old rest

/-- The `ErrorDescription` namedtuple. -/
structure ErrorDescription where
  file : List Char
  line : Nat
  column : Nat
  error : List Char
  error_identifier : List Char
  description : List Char
deriving DecidableEq

/-- The classifier's observable state: the accumulated records (the list
behind the class attribute `ClangTidyConverter.errors`) and the sequences
dropped with a `logging.warning` call. -/
structure ConvState where
  errors : List ErrorDescription
  warnings : List (List (List Char))
deriving DecidableEq

/-- Initial value of the class attribute `errors = []`.  In Python this
list is owned by the class, not the instance, so it is created once per
process and shared by every `ClangTidyConverter` instance. -/
def errorsInit : List ErrorDescription := []

/-- The state a fresh process starts with. -/
def initState : ConvState := ⟨errorsInit, []⟩

/-- Model of `ClangTidyConverter.process_error`.  `none` models the
uncaught `ValueError` that `int()` would raise (shown unreachable below);
a failed re-match logs a warning and drops the sequence. -/
def process_error (basename : List Char) (st : ConvState) :
    List (List Char) → Option ConvState
  | [] => some st
  | first :: rest =>
    match error_regex_match first with
    | none => some { st with warnings := st.warnings ++ [first :: rest] }
    | some g =>
      match pyInt g.lineNo, pyInt g.colNo with
      | some ln, some col =>
        some { st with
          errors := st.errors ++
            [⟨pyReplace g.path basename, ln, col, g.msg, g.tag,
              List.intercalate ['\n'] rest⟩] }
      | _, _ => none

/-- The line loop of `ClangTidyConverter.convert`: returns the pending
`current_error` and the state after consuming all lines. -/
def convertLoop (basename : List Char) :
    List (List Char) → List (List Char) → ConvState →
    Option (List (List Char) × ConvState)
  | [], cur, st => some (cur, st)
  | line :: rest, cur, st =>
    if start_found line then
      if main_error_identifier_search8 line then
        match process_error basename st cur with
        | none => none
        | some st2 => convertLoop basename rest [line] st2
      else convertLoop basename rest (cur ++ [line]) st
    else if cur.length > 0 then convertLoop basename rest (cur ++ [line]) st
    else convertLoop basename rest cur st

/-- Model of `ClangTidyConverter.convert` up to the final seal: the final
`if len(current_error) > 0: self.process_error(current_error)`. -/
def convert (basename : List Char) (lines : List (List Char)) (st : ConvState) :
    Option ConvState :=
  match convertLoop basename lines [] st with
  | none => none
  | some (cur, st2) => if cur.length > 0 then process_error basename st2 cur else some st2

/-- Total wrapper around `convert` (the `none` branch is proved dead). -/
def runConvert (basename : List Char) (lines : List (List Char)) (st : ConvState) :
    ConvState :=
  (convert basename lines st).getD st

/-- Lexicographic code-point order on strings, Python's `<=` on `str`,
used by `sorted(self.errors, key=lambda x: x.file)`. -/
def leStr : List Char → List Char → Bool
  | [], _ => true
  | _ :: _, [] => false
  | a :: as_, b :: bs => if a = b then leStr as_ bs else decide (a < b)

/-- Strictly-ascending lexicographic order, for stating group ordering. -/
def ltStrP (a b : List Char) : Prop := leStr a b = true ∧ a ≠ b

/-- One insertion step of a stable sort by the `file` field: the new
element goes in front of the first element whose key is not smaller,
keeping earlier-sealed records of an equal key in front. -/
def orderedInsert (a : ErrorDescription) : List ErrorDescription → List ErrorDescription
  | [] => [a]
  | b :: l => if leStr a.file b.file then a :: b :: l else b :: orderedInsert a l

/-- Model of `sorted(self.errors, key=lambda x: x.file)`.  Python's sort is
stable; insertion sort is the canonical stable sort, so the results agree. -/
def sortByFile : List ErrorDescription → List ErrorDescription
  | [] => []
  | a :: l => orderedInsert a (sortByFile l)

/-- Model of `itertools.groupby(sorted_errors, key=lambda x: x.file)`:
maximal consecutive runs of records sharing a `file`, with their key. -/
def groupByFile : List ErrorDescription → List (List Char × List ErrorDescription)
  | [] => []
  | e :: l =>
    match groupByFile l with
    | [] => [(e.file, [e])]
    | (k, g) :: rest =>
      if e.file = k then (k, e :: g) :: rest else (e.file, [e]) :: (k, g) :: rest

/-- The grouped, sorted collection the serializer's `for` loop walks. -/
def groupEntries (errors : List ErrorDescription) :
    List (List Char × List ErrorDescription) :=
  groupByFile (sortByFile errors)

/-- `xml.sax.saxutils.escape` on one character (element-content escaping:
`&`, `<`, `>`). -/
def escapeChar (c : Char) : List Char :=
  if c = '&' then "&amp;".toList
  else if c = '<' then "&lt;".toList
  else if c = '>' then "&gt;".toList
  else [c]

/-- Model of `escape(data)` used for the failure body. -/
def escapeXml (s : List Char) : List Char :=
  (s.map escapeChar).flatten

/-- `escape` with the extra entity `{'"': "&quot;"}` on one character. -/
def escapeCharQ (c : Char) : List Char :=
  if c = '"' then "&quot;".toList else escapeChar c

/-- Model of `escape(data, entities={'"': "&quot;"})` used for the
`message` attribute. -/
def escapeAttr (s : List Char) : List Char :=
  (s.map escapeCharQ).flatten

/-- One step of entity decoding by a standard XML parser, fuelled. -/
def unescapeF : Nat → List Char → List Char
  | _, [] => []
  | 0, s => s
  | fuel + 1, c :: rest =>
    if c = '&' && startsWithL "amp;".toList rest then '&' :: unescapeF fuel (rest.drop 4)
    else if c = '&' && startsWithL "lt;".toList rest then '<' :: unescapeF fuel (rest.drop 3)
    else if c = '&' && startsWithL "gt;".toList rest then '>' :: unescapeF fuel (rest.drop 3)
    else if c = '&' && startsWithL "quot;".toList rest then '"' :: unescapeF fuel (rest.drop 5)
    else c :: unescapeF fuel rest

/-- Entity decoding as a standard XML parser performs it on an attribute
value (the four entities the serializer can emit). -/
def unescapeXml (s : List Char) : List Char :=
  unescapeF s.length s

/-- Decimal rendering of a count spliced into the XML text. -/
def natStr (n : Nat) : List Char := (Nat.repr n).toList

/-- The `tests`/`errors` value written on the root element. -/
def rootCount (errors : List ErrorDescription) : Nat := errors.length

/-- The `tests`/`errors` value written on one `<testsuite>` element. -/
def suiteCount (g : List Char × List ErrorDescription) : Nat := g.2.length

/-- The composite id `"[{line}/{column}] {identifier}"` of a testcase. -/
def caseId (e : ErrorDescription) : List Char :=
  '[' :: (natStr e.line ++ '/' :: natStr e.column ++ ']' :: ' ' :: e.error_identifier)

/-- The text written for one error (one `<testcase>` element). -/
def testcaseXml (e : ErrorDescription) : List Char :=
  "\n        <testcase id=\"".toList ++ caseId e ++
  "\" name=\"".toList ++ caseId e ++
  "\" time=\"0\">\n            <failure message=\"".toList ++ escapeAttr e.error ++
  "\">\n".toList ++ escapeXml e.description ++
  "\n            </failure>\n        </testcase>".toList

/-- The text written for one file group (one `<testsuite>` element). -/
def testsuiteXml (g : List Char × List ErrorDescription) : List Char :=
  "\n    <testsuite errors=\"".toList ++ natStr (suiteCount g) ++
  "\" name=\"".toList ++ g.1 ++
  "\" tests=\"".toList ++ natStr (suiteCount g) ++
  "\" failures=\"0\" time=\"0\">\n".toList ++
  (g.2.map testcaseXml).flatten ++
  "\n    </testsuite>\n".toList

/-- Model of `ClangTidyConverter.print_junit_file`: header with the total
count, one testsuite per group of `groupEntries`, closing tag. -/
def print_junit_file (errors : List ErrorDescription) : List Char :=
  "<?xml version=\"1.0\" encoding=\"UTF-8\" ?>\n<testsuites id=\"1\" name=\"Clang-Tidy\" tests=\"".toList
  ++ natStr (rootCount errors) ++ "\" errors=\"".toList ++ natStr (rootCount errors)
  ++ "\" failures=\"0\" time=\"0\">".toList
  ++ ((groupEntries errors).map testsuiteXml).flatten
  ++ "</testsuites>\n".toList

/-- A line matches the full header pattern. -/
def isHeaderLine (l : List Char) : Bool := (error_regex_match l).isSome

/-- Number of input lines matching the full header pattern. -/
def countHeaders (lines : List (List Char)) : Nat := lines.countP isHeaderLine

/-- Number of records a seal of `cur` would append: 1 when the first
pending line re-matches `error_regex`, else 0. -/
def sealN : List (List Char) → Nat
  | [] => 0
  | first :: _ => if (error_regex_match first).isSome then 1 else 0

/-! ### Basic lemmas about prefixes -/

lemma startsWithL_append_self : ∀ l s : List Char, startsWithL l (l ++ s) = true := by
  intro l
  induction l with
  | nil => intro s; rfl
  | cons c cs ih => intro s; simp [startsWithL, ih]

/-! ### Escaping: lemmas for the round-trip -/

lemma escapeAttr_nil : escapeAttr [] = [] := rfl

lemma escapeAttr_cons (c : Char) (s : List Char) :
    escapeAttr (c :: s) = escapeCharQ c ++ escapeAttr s := by
  simp [escapeAttr]


lemma unescapeF_amp (fuel : Nat) (t : List Char) :
    unescapeF (fuel + 1) ('&' :: 'a' :: 'm' :: 'p' :: ';' :: t) = '&' :: unescapeF fuel t := by
  simp [unescapeF, startsWithL]

lemma unescapeF_lt (fuel : Nat) (t : List Char) :
    unescapeF (fuel + 1) ('&' :: 'l' :: 't' :: ';' :: t) = '<' :: unescapeF fuel t := by
  simp [unescapeF, startsWithL]

lemma unescapeF_gt (fuel : Nat) (t : List Char) :
    unescapeF (fuel + 1) ('&' :: 'g' :: 't' :: ';' :: t) = '>' :: unescapeF fuel t := by
  simp [unescapeF, startsWithL]

lemma unescapeF_quot (fuel : Nat) (t : List Char) :
    unescapeF (fuel + 1) ('&' :: 'q' :: 'u' :: 'o' :: 't' :: ';' :: t) = '"' :: unescapeF fuel t := by
  simp [unescapeF, startsWithL]

lemma unescapeF_other (fuel : Nat) (c : Char) (t : List Char) (hc : c ≠ '&') :
    unescapeF (fuel + 1) (c :: t) = c :: unescapeF fuel t := by
  simp [unescapeF, hc]

lemma unescapeF_escapeAttr :
    ∀ (s : List Char) (fuel : Nat), (escapeAttr s).length ≤ fuel →
      unescapeF fuel (escapeAttr s) = s := by
  intro s
  induction s with
  | nil => intro fuel _; cases fuel <;> rfl
  | cons c s ih =>
    intro fuel hfuel
    rw [escapeAttr_cons] at hfuel ⊢
    by_cases h1 : c = '&'
    · subst h1
      rw [show escapeCharQ '&' = ['&', 'a', 'm', 'p', ';'] from by decide] at hfuel ⊢
      simp only [List.length_append, List.length_cons] at hfuel
      cases fuel with
      | zero => omega
      | succ f =>
        show unescapeF (f + 1) ('&' :: 'a' :: 'm' :: 'p' :: ';' :: escapeAttr s) = _
        rw [unescapeF_amp, ih f (by omega)]
    · by_cases h2 : c = '<'
      · subst h2
        rw [show escapeCharQ '<' = ['&', 'l', 't', ';'] from by decide] at hfuel ⊢
        simp only [List.length_append, List.length_cons] at hfuel
        cases fuel with
        | zero => omega
        | succ f =>
          show unescapeF (f + 1) ('&' :: 'l' :: 't' :: ';' :: escapeAttr s) = _
          rw [unescapeF_lt, ih f (by omega)]
      · by_cases h3 : c = '>'
        · subst h3
          rw [show escapeCharQ '>' = ['&', 'g', 't', ';'] from by decide] at hfuel ⊢
          simp only [List.length_append, List.length_cons] at hfuel
          cases fuel with
          | zero => omega
          | succ f =>
            show unescapeF (f + 1) ('&' :: 'g' :: 't' :: ';' :: escapeAttr s) = _
            rw [unescapeF_gt, ih f (by omega)]
        · by_cases h4 : c = '"'
          · subst h4
            rw [show escapeCharQ '"' = ['&', 'q', 'u', 'o', 't', ';'] from by decide] at hfuel ⊢
            simp only [List.length_append, List.length_cons] at hfuel
            cases fuel with
            | zero => omega
            | succ f =>
              show unescapeF (f + 1) ('&' :: 'q' :: 'u' :: 'o' :: 't' :: ';' :: escapeAttr s) = _
              rw [unescapeF_quot, ih f (by omega)]
          · have he : escapeCharQ c = [c] := by
              simp [escapeCharQ, escapeChar, h1, h2, h3, h4]
            rw [he] at hfuel ⊢
            simp only [List.length_append, List.length_cons] at hfuel
            cases fuel with
            | zero => omega
            | succ f =>
              show unescapeF (f + 1) (c :: escapeAttr s) = _
              rw [unescapeF_other f c _ h1, ih f (by omega)]

lemma escapeCharQ_no_specials (x : Char) :
    ∀ c ∈ escapeCharQ x, c ≠ '<' ∧ c ≠ '>' ∧ c ≠ '"' := by
  intro c h
  by_cases h1 : x = '&'
  · subst h1
    rw [show escapeCharQ '&' = ['&', 'a', 'm', 'p', ';'] from by decide] at h
    simp only [List.mem_cons, List.not_mem_nil, or_false] at h
    rcases h with rfl | rfl | rfl | rfl | rfl <;> exact ⟨by decide, by decide, by decide⟩
  · by_cases h2 : x = '<'
    · subst h2
      rw [show escapeCharQ '<' = ['&', 'l', 't', ';'] from by decide] at h
      simp only [List.mem_cons, List.not_mem_nil, or_false] at h
      rcases h with rfl | rfl | rfl | rfl <;> exact ⟨by decide, by decide, by decide⟩
    · by_cases h3 : x = '>'
      · subst h3
        rw [show escapeCharQ '>' = ['&', 'g', 't', ';'] from by decide] at h
        simp only [List.mem_cons, List.not_mem_nil, or_false] at h
        rcases h with rfl | rfl | rfl | rfl <;> exact ⟨by decide, by decide, by decide⟩
      · by_cases h4 : x = '"'
        · subst h4
          rw [show escapeCharQ '"' = ['&', 'q', 'u', 'o', 't', ';'] from by decide] at h
          simp only [List.mem_cons, List.not_mem_nil, or_false] at h
          rcases h with rfl | rfl | rfl | rfl | rfl | rfl <;> exact ⟨by decide, by decide, by decide⟩
        · have he : escapeCharQ x = [x] := by
            simp [escapeCharQ, escapeChar, h1, h2, h3, h4]
          rw [he] at h
          rcases List.mem_singleton.mp h with rfl
          exact ⟨h2, h3, h4⟩

lemma escapeAttr_no_specials :
    ∀ (s : List Char), ∀ c ∈ escapeAttr s, c ≠ '<' ∧ c ≠ '>' ∧ c ≠ '"' := by
  intro s
  induction s with
  | nil => intro c hc; simp [escapeAttr] at hc
  | cons x s ih =>
    intro c hc
    rw [escapeAttr_cons] at hc
    rcases List.mem_append.mp hc with h | h
    · exact escapeCharQ_no_specials x c h
    · exact ih c h

/-- C7: any summary, in particular one holding `<`, `&`, `"`, is embedded in
the `message` attribute with at least `&`, `<`, `>`, `"` escaped (the escaped
text holds no raw `<`, `>` or `"`), and standard entity decoding of the
attribute value gives the original summary back exactly. -/
theorem C7_escape_attr_roundtrip (s : List Char) :
    unescapeXml (escapeAttr s) = s ∧ ∀ c ∈ escapeAttr s, c ≠ '<' ∧ c ≠ '>' ∧ c ≠ '"' := by
  refine ⟨?_, escapeAttr_no_specials s⟩
  unfold unescapeXml
  exact unescapeF_escapeAttr s _ le_rfl

/-- Witness for C7 at the summary `a<b&c"d>e`. -/
theorem C7_escape_attr_roundtrip_witness :
    unescapeXml (escapeAttr "a<b&c\"d>e".toList) = "a<b&c\"d>e".toList
    ∧ ('a' ≠ '<' ∧ 'a' ≠ '>' ∧ 'a' ≠ '"') :=
  ⟨(C7_escape_attr_roundtrip ("a<b&c\"d>e".toList)).1,
   (C7_escape_attr_roundtrip ("a<b&c\"d>e".toList)).2 'a' (by decide)⟩

/-! ### Lemmas about `pyReplace` (Python `str.replace(old, "")`) -/

lemma removeOccF_no_occ (o : Char) (ot : List Char) :
    ∀ (s : List Char) (fuel : Nat), occursIn (o :: ot) s = false →
      removeOccF o ot fuel s = s := by
  intro s
  induction s with
  | nil => intro fuel _; cases fuel <;> rfl
  | cons c rest ih =>
    intro fuel h
    rw [occursIn] at h
    rcases Bool.or_eq_false_iff.mp h with ⟨h1, h2⟩
    cases fuel with
    | zero => rfl
    | succ f =>
      rw [removeOccF, if_neg (by simp [h1]), ih f h2]

lemma removeOccF_head (o : Char) (ot s : List Char) (fuel : Nat) :
    removeOccF o ot (fuel + 1) (o :: (ot ++ s)) = removeOccF o ot fuel s := by
  have h : startsWithL (o :: ot) (o :: (ot ++ s)) = true := startsWithL_append_self (o :: ot) s
  rw [removeOccF, if_pos (by simp [h]), List.drop_left]

/-- C3 (amended): `str.replace(basename, "")` removes every literal
occurrence of the configured prefix, scanning left to right — after the
first occurrence is removed, removal continues on the remainder, so a
second occurrence is removed as well; with no occurrence the path is kept. -/
theorem C3_pyReplace_removes_every_occurrence (o : Char) (ot p : List Char)
    (h : occursIn (o :: ot) p = false) :
    pyReplace ((o :: ot) ++ ((o :: ot) ++ p)) (o :: ot) = p
    ∧ pyReplace ((o :: ot) ++ p) (o :: ot) = p
    ∧ pyReplace p (o :: ot) = p := by
  refine ⟨?_, ?_, removeOccF_no_occ o ot p p.length h⟩
  · show removeOccF o ot ((o :: ot) ++ ((o :: ot) ++ p)).length ((o :: ot) ++ ((o :: ot) ++ p)) = p
    have hL : ((o :: ot) ++ ((o :: ot) ++ p)).length
        = (ot.length + (ot.length + p.length + 1)) + 1 := by
      simp [List.length_append]
    rw [hL]
    show removeOccF o ot _ (o :: (ot ++ ((o :: ot) ++ p))) = p
    rw [removeOccF_head]
    have h2 : ot.length + (ot.length + p.length + 1) = (ot.length + ot.length + p.length) + 1 := by
      omega
    rw [h2]
    show removeOccF o ot _ (o :: (ot ++ p)) = p
    rw [removeOccF_head]
    exact removeOccF_no_occ o ot p _ h
  · show removeOccF o ot ((o :: ot) ++ p).length ((o :: ot) ++ p) = p
    have hL : ((o :: ot) ++ p).length = (ot.length + p.length) + 1 := by
      simp [List.length_append]
    rw [hL]
    show removeOccF o ot _ (o :: (ot ++ p)) = p
    rw [removeOccF_head]
    exact removeOccF_no_occ o ot p _ h

/-- Witness for the amended C3: prefix `src/`, remainder `main.cpp`. -/
theorem C3_pyReplace_removes_every_occurrence_witness :
    pyReplace (('s' :: "rc/".toList) ++ (('s' :: "rc/".toList) ++ "main.cpp".toList))
      ('s' :: "rc/".toList) = "main.cpp".toList
    ∧ occursIn ('s' :: "rc/".toList) "main.cpp".toList = false :=
  ⟨(C3_pyReplace_removes_every_occurrence 's' "rc/".toList "main.cpp".toList (by decide)).1,
   by decide⟩

/-- C3 counterexample: with prefix `src/` the raw path `src/src/main.cpp`
is normalized to `main.cpp` — both occurrences are removed, not only the
first one, which would give `src/main.cpp`. -/
theorem C3_counterexample :
    (runConvert "src/".toList ["src/src/main.cpp:7:3: bad thing [bug-prone]\n".toList]
        initState).errors.map (fun e => e.file) = ["main.cpp".toList]
    ∧ "main.cpp".toList ≠ "src/main.cpp".toList :=
  ⟨by decide, by decide⟩

/-! ### The lexicographic order used by `sorted(..., key=lambda x: x.file)` -/

lemma leStr_refl : ∀ s : List Char, leStr s s = true := by
  intro s
  induction s with
  | nil => rfl
  | cons c cs ih => simp [leStr, ih]

lemma leStr_total : ∀ s t : List Char, leStr s t = true ∨ leStr t s = true := by
  intro s
  induction s with
  | nil => intro t; left; rfl
  | cons c cs ih =>
    intro t
    cases t with
    | nil => right; rfl
    | cons d ds =>
      by_cases hcd : c = d
      · subst hcd
        simp only [leStr, if_pos rfl]
        exact ih ds
      · rcases lt_trichotomy c d with h | h | h
        · left; simp [leStr, hcd, h]
        · exact absurd h hcd
        · right; simp [leStr, Ne.symm hcd, h]

lemma leStr_trans : ∀ a b c : List Char, leStr a b = true → leStr b c = true →
    leStr a c = true := by
  intro a
  induction a with
  | nil => intro b c _ _; rfl
  | cons x xs ih =>
    intro b c h1 h2
    cases b with
    | nil => simp [leStr] at h1
    | cons y ys =>
      cases c with
      | nil => simp [leStr] at h2
      | cons z zs =>
        by_cases hxy : x = y
        · subst hxy
          by_cases hyz : x = z
          · subst hyz
            simp only [leStr, if_pos rfl] at h1 h2 ⊢
            exact ih ys zs h1 h2
          · simp only [leStr, if_pos rfl] at h1
            simpa [leStr, hyz] using h2
        · by_cases hyz : y = z
          · subst hyz
            simpa [leStr, hxy] using h1
          · simp only [leStr, if_neg hxy, decide_eq_true_eq] at h1
            simp only [leStr, if_neg hyz, decide_eq_true_eq] at h2
            have hxz : x < z := lt_trans h1 h2
            simp [leStr, ne_of_lt hxz, hxz]

lemma leStr_antisymm : ∀ a b : List Char, leStr a b = true → leStr b a = true → a = b := by
  intro a
  induction a with
  | nil =>
    intro b _ h2
    cases b with
    | nil => rfl
    | cons y ys => simp [leStr] at h2
  | cons x xs ih =>
    intro b h1 h2
    cases b with
    | nil => simp [leStr] at h1
    | cons y ys =>
      by_cases hxy : x = y
      · subst hxy
        simp only [leStr, if_pos rfl] at h1 h2
        rw [ih ys h1 h2]
      · simp only [leStr, if_neg hxy, decide_eq_true_eq] at h1
        simp only [leStr, if_neg (Ne.symm hxy), decide_eq_true_eq] at h2
        exact absurd h2 (not_lt_of_lt h1)

lemma leStr_of_not_le {a b : List Char} (h : leStr a b = false) :
    leStr b a = true ∧ a ≠ b := by
  constructor
  · rcases leStr_total a b with h' | h'
    · rw [h'] at h; cases h
    · exact h'
  · intro he
    subst he
    rw [leStr_refl a] at h
    cases h

/-! ### The stable sort by `file` -/


lemma orderedInsert_cons_pos (a b : ErrorDescription) (l : List ErrorDescription)
    (h : leStr a.file b.file = true) : orderedInsert a (b :: l) = a :: b :: l := by
  simp [orderedInsert, h]

lemma orderedInsert_cons_neg (a b : ErrorDescription) (l : List ErrorDescription)
    (h : leStr a.file b.file = false) : orderedInsert a (b :: l) = b :: orderedInsert a l := by
  simp [orderedInsert, h]

lemma orderedInsert_mem (a x : ErrorDescription) :
    ∀ l, x ∈ orderedInsert a l ↔ x = a ∨ x ∈ l := by
  intro l
  induction l with
  | nil => simp [orderedInsert]
  | cons b l ih =>
    cases h : leStr a.file b.file
    · rw [orderedInsert_cons_neg a b l h]
      simp only [List.mem_cons, ih]
      tauto
    · rw [orderedInsert_cons_pos a b l h]
      simp only [List.mem_cons]

lemma orderedInsert_length (a : ErrorDescription) :
    ∀ l, (orderedInsert a l).length = l.length + 1 := by
  intro l
  induction l with
  | nil => rfl
  | cons b l ih =>
    cases h : leStr a.file b.file
    · rw [orderedInsert_cons_neg a b l h]
      simp [ih]
    · rw [orderedInsert_cons_pos a b l h]
      simp

lemma orderedInsert_filter_pos (a : ErrorDescription) (k : List Char) (hk : a.file = k) :
    ∀ l, (orderedInsert a l).filter (fun e => e.file == k)
      = a :: l.filter (fun e => e.file == k) := by
  intro l
  have hak : (a.file == k) = true := by simp [hk]
  induction l with
  | nil => simp [orderedInsert, List.filter, hak]
  | cons b l ih =>
    cases h : leStr a.file b.file
    · have hbk : (b.file == k) = false := by
        have hne : a.file ≠ b.file := (leStr_of_not_le h).2
        simp only [beq_eq_false_iff_ne]
        intro he
        exact hne (by rw [hk, he])
      rw [orderedInsert_cons_neg a b l h, List.filter_cons, List.filter_cons]
      simp only [hbk]
      exact congrArg _ ih
    · rw [orderedInsert_cons_pos a b l h, List.filter_cons, List.filter_cons]
      simp only [hak]
      rfl

lemma orderedInsert_filter_neg (a : ErrorDescription) (k : List Char) (hk : a.file ≠ k) :
    ∀ l, (orderedInsert a l).filter (fun e => e.file == k)
      = l.filter (fun e => e.file == k) := by
  intro l
  have hak : (a.file == k) = false := by simpa using hk
  induction l with
  | nil => simp [orderedInsert, List.filter, hak]
  | cons b l ih =>
    cases h : leStr a.file b.file
    · rw [orderedInsert_cons_neg a b l h, List.filter_cons, List.filter_cons]
      cases hbk : (b.file == k)
      · simp [hbk, ih]
      · simp [hbk, ih]
    · rw [orderedInsert_cons_pos a b l h, List.filter_cons]
      simp [hak]

lemma orderedInsert_sorted (a : ErrorDescription) :
    ∀ l, List.Pairwise (fun x y => leStr x.file y.file = true) l →
      List.Pairwise (fun x y => leStr x.file y.file = true) (orderedInsert a l) := by
  intro l
  induction l with
  | nil => intro _; simp [orderedInsert]
  | cons b l ih =>
    intro hp
    rcases List.pairwise_cons.mp hp with ⟨hb, hl⟩
    cases h : leStr a.file b.file
    · rw [orderedInsert_cons_neg a b l h]
      refine List.pairwise_cons.mpr ⟨?_, ih hl⟩
      intro x hx
      rcases (orderedInsert_mem a x l).mp hx with rfl | hx
      · exact (leStr_of_not_le h).1
      · exact hb x hx
    · rw [orderedInsert_cons_pos a b l h]
      refine List.pairwise_cons.mpr ⟨?_, hp⟩
      intro x hx
      rcases List.mem_cons.mp hx with rfl | hx
      · exact h
      · exact leStr_trans _ _ _ h (hb x hx)

lemma sortByFile_sorted : ∀ l, List.Pairwise (fun x y => leStr x.file y.file = true)
    (sortByFile l) := by
  intro l
  induction l with
  | nil => simp [sortByFile]
  | cons a l ih => exact orderedInsert_sorted a _ ih

lemma sortByFile_filter : ∀ (l : List ErrorDescription) (k : List Char),
    (sortByFile l).filter (fun e => e.file == k) = l.filter (fun e => e.file == k) := by
  intro l
  induction l with
  | nil => intro k; rfl
  | cons a l ih =>
    intro k
    by_cases hk : a.file = k
    · rw [sortByFile, orderedInsert_filter_pos a k hk, ih k,
        List.filter_cons, if_pos (by simpa using hk)]
    · rw [sortByFile, orderedInsert_filter_neg a k hk, ih k,
        List.filter_cons, if_neg (by simpa using hk)]

lemma sortByFile_mem (x : ErrorDescription) :
    ∀ l, x ∈ sortByFile l ↔ x ∈ l := by
  intro l
  induction l with
  | nil => simp [sortByFile]
  | cons a l ih =>
    rw [sortByFile, orderedInsert_mem, ih, List.mem_cons]

lemma sortByFile_length : ∀ l : List ErrorDescription,
    (sortByFile l).length = l.length := by
  intro l
  induction l with
  | nil => rfl
  | cons a l ih =>
    rw [sortByFile, orderedInsert_length, ih]
    simp

/-! ### Lemmas about `groupByFile` (the `itertools.groupby` model) -/

lemma groupByFile_cons_new_nil (e : ErrorDescription) (l : List ErrorDescription)
    (hG : groupByFile l = []) : groupByFile (e :: l) = [(e.file, [e])] := by
  simp [groupByFile, hG]

lemma groupByFile_cons_merge (e : ErrorDescription) (l : List ErrorDescription)
    (k : List Char) (g : List ErrorDescription) (rest : List (List Char × List ErrorDescription))
    (hG : groupByFile l = (k, g) :: rest) (he : e.file = k) :
    groupByFile (e :: l) = (k, e :: g) :: rest := by
  simp [groupByFile, hG, he]

lemma groupByFile_cons_new (e : ErrorDescription) (l : List ErrorDescription)
    (k : List Char) (g : List ErrorDescription) (rest : List (List Char × List ErrorDescription))
    (hG : groupByFile l = (k, g) :: rest) (he : e.file ≠ k) :
    groupByFile (e :: l) = (e.file, [e]) :: (k, g) :: rest := by
  simp [groupByFile, hG, he]

lemma groupByFile_flatten : ∀ l : List ErrorDescription,
    ((groupByFile l).map Prod.snd).flatten = l := by
  intro l
  induction l with
  | nil => rfl
  | cons e l ih =>
    cases hG : groupByFile l with
    | nil =>
      rw [hG] at ih
      simp only [List.map_nil, List.flatten_nil] at ih
      rw [groupByFile_cons_new_nil e l hG, ← ih]
      rfl
    | cons kg rest =>
      obtain ⟨k, g⟩ := kg
      rw [hG] at ih
      by_cases he : e.file = k
      · rw [groupByFile_cons_merge e l k g rest hG he]
        simp only [List.map_cons, List.flatten_cons] at ih ⊢
        rw [← ih]
        simp
      · rw [groupByFile_cons_new e l k g rest hG he]
        simp only [List.map_cons, List.flatten_cons] at ih ⊢
        rw [← ih]
        simp

lemma groupByFile_keys_sub : ∀ (l : List ErrorDescription) (key : List Char),
    key ∈ (groupByFile l).map Prod.fst → ∃ x ∈ l, x.file = key := by
  intro l
  induction l with
  | nil => intro key h; simp [groupByFile] at h
  | cons e l ih =>
    intro key h
    cases hG : groupByFile l with
    | nil =>
      rw [groupByFile_cons_new_nil e l hG] at h
      simp only [List.map_cons, List.map_nil, List.mem_singleton] at h
      exact ⟨e, List.mem_cons_self e l, h.symm⟩
    | cons kg rest =>
      obtain ⟨k, g⟩ := kg
      by_cases he : e.file = k
      · rw [groupByFile_cons_merge e l k g rest hG he] at h
        simp only [List.map_cons, List.mem_cons] at h
        rcases h with rfl | h
        · exact ⟨e, List.mem_cons_self e l, he⟩
        · rcases ih key (by rw [hG]; simpa using Or.inr h) with ⟨x, hx, hxf⟩
          exact ⟨x, List.mem_cons_of_mem e hx, hxf⟩
      · rw [groupByFile_cons_new e l k g rest hG he] at h
        simp only [List.map_cons, List.mem_cons] at h
        rcases h with rfl | h
        · exact ⟨e, List.mem_cons_self e l, rfl⟩
        · rcases ih key (by rw [hG]; simpa using h) with ⟨x, hx, hxf⟩
          exact ⟨x, List.mem_cons_of_mem e hx, hxf⟩

lemma groupByFile_mem_keys : ∀ (l : List ErrorDescription) (x : ErrorDescription),
    x ∈ l → x.file ∈ (groupByFile l).map Prod.fst := by
  intro l
  induction l with
  | nil => intro x h; cases h
  | cons e l ih =>
    intro x h
    cases hG : groupByFile l with
    | nil =>
      rw [groupByFile_cons_new_nil e l hG]
      rcases List.mem_cons.mp h with rfl | h
      · simp
      · have := ih x h
        rw [hG] at this
        simp at this
    | cons kg rest =>
      obtain ⟨k, g⟩ := kg
      by_cases he : e.file = k
      · rw [groupByFile_cons_merge e l k g rest hG he]
        rcases List.mem_cons.mp h with rfl | h
        · simp [he]
        · have := ih x h
          rw [hG] at this
          simpa using this
      · rw [groupByFile_cons_new e l k g rest hG he]
        rcases List.mem_cons.mp h with rfl | h
        · simp
        · have := ih x h
          rw [hG] at this
          simp only [List.map_cons, List.mem_cons] at this ⊢
          tauto

lemma groupByFile_sorted_spec :
    ∀ l : List ErrorDescription, List.Pairwise (fun x y => leStr x.file y.file = true) l →
      List.Pairwise ltStrP ((groupByFile l).map Prod.fst)
      ∧ ∀ p ∈ groupByFile l, p.2 = l.filter (fun e => e.file == p.1) := by
  intro l
  induction l with
  | nil => intro _; exact ⟨by simp [groupByFile], by simp [groupByFile]⟩
  | cons e l ih =>
    intro hp
    rcases List.pairwise_cons.mp hp with ⟨hb, hl⟩
    rcases ih hl with ⟨IH1, IH2⟩
    cases hG : groupByFile l with
    | nil =>
      have hleq : l = [] := by
        have h := groupByFile_flatten l
        rw [hG] at h
        simpa using h.symm
      subst hleq
      rw [groupByFile_cons_new_nil e [] hG]
      constructor
      · simp
      · intro p hp'
        rcases List.mem_singleton.mp hp' with rfl
        simp [List.filter]
    | cons kg rest =>
      obtain ⟨k, g⟩ := kg
      rw [hG] at IH1 IH2
      simp only [List.map_cons] at IH1
      have hkey : ∀ key, key ∈ k :: rest.map Prod.fst → ∃ x ∈ l, x.file = key := by
        intro key hkmem
        apply groupByFile_keys_sub l key
        rw [hG]
        simpa using hkmem
      by_cases he : e.file = k
      · rw [groupByFile_cons_merge e l k g rest hG he]
        constructor
        · simpa using IH1
        · intro p hp'
          rcases List.mem_cons.mp hp' with rfl | hp'
          · have hgodd : g = l.filter (fun x => x.file == k) := by
              simpa using IH2 (k, g) (List.mem_cons_self _ _)
            have hcond : (e.file == k) = true := by simpa using he
            show e :: g = (e :: l).filter (fun x => x.file == k)
            rw [List.filter_cons]
            simp only [hcond, if_true]
            rw [← hgodd]
          · have h2 : p.2 = l.filter (fun x => x.file == p.1) :=
              IH2 p (List.mem_cons_of_mem _ hp')
            have hk1 : ltStrP k p.1 := by
              rcases List.pairwise_cons.mp IH1 with ⟨hkk, _⟩
              exact hkk p.1 (List.mem_map_of_mem Prod.fst hp')
            have hne : e.file ≠ p.1 := by rw [he]; exact hk1.2
            have hcond : (e.file == p.1) = false := by simpa using hne
            rw [h2, List.filter_cons]
            simp [hcond]
      · rw [groupByFile_cons_new e l k g rest hG he]
        have hN : ∀ x ∈ l, e.file ≠ x.file := by
          intro x hx heq
          have hkx := groupByFile_mem_keys l x hx
          rw [hG] at hkx
          simp only [List.map_cons, List.mem_cons] at hkx
          rcases hkx with hxk | hxk
          · exact he (by rw [heq, hxk])
          · rcases List.pairwise_cons.mp IH1 with ⟨hkk, _⟩
            have hlt := hkk x.file hxk
            rcases hkey k (List.mem_cons_self _ _) with ⟨y, hy, hyk⟩
            have hek : leStr e.file k = true := by rw [← hyk]; exact hb y hy
            have hxk2 : leStr x.file k = true := by rw [← heq]; exact hek
            exact hlt.2 (leStr_antisymm k x.file hlt.1 hxk2)
        constructor
        · simp only [List.map_cons]
          refine List.pairwise_cons.mpr ⟨?_, IH1⟩
          intro key hk
          rcases hkey key hk with ⟨x, hx, rfl⟩
          exact ⟨hb x hx, hN x hx⟩
        · intro p hp'
          rcases List.mem_cons.mp hp' with rfl | hp'
          · show [e] = (e :: l).filter (fun x => x.file == e.file)
            have hnil : l.filter (fun x => x.file == e.file) = [] := by
              rw [List.filter_eq_nil_iff]
              intro x hx
              simp only [beq_iff_eq]
              exact fun hxe => hN x hx hxe.symm
            rw [List.filter_cons]
            simp [hnil]
          · have h2 : p.2 = l.filter (fun x => x.file == p.1) := IH2 p hp'
            have hmem : p.1 ∈ k :: rest.map Prod.fst := by
              rcases List.mem_cons.mp hp' with rfl | hp''
              · exact List.mem_cons_self _ _
              · exact List.mem_cons_of_mem _ (List.mem_map_of_mem Prod.fst hp'')
            have hne : e.file ≠ p.1 := by
              rcases hkey p.1 hmem with ⟨x, hx, hxf⟩
              rw [← hxf]
              exact hN x hx
            have hcond : (e.file == p.1) = false := by simpa using hne
            rw [h2, List.filter_cons]
            simp [hcond]

/-- C5: the serializer walks exactly one group per distinct `file` value of
the collection, groups are emitted in strictly ascending lexicographic order
of `file`, and each group lists its records in the order they were sealed:
the group of key `k` is precisely the subsequence of the original collection
with `file = k` (stable sort by `file`, then consecutive equal-file runs). -/
theorem C5_grouping_sorted_stable (errors : List ErrorDescription) :
    List.Pairwise ltStrP ((groupEntries errors).map Prod.fst)
    ∧ (∀ p ∈ groupEntries errors, p.2 = errors.filter (fun e => e.file == p.1))
    ∧ (∀ e ∈ errors, e.file ∈ (groupEntries errors).map Prod.fst)
    ∧ (∀ key ∈ (groupEntries errors).map Prod.fst, ∃ e ∈ errors, e.file = key) := by
  have hs := sortByFile_sorted errors
  rcases groupByFile_sorted_spec (sortByFile errors) hs with ⟨h1, h2⟩
  refine ⟨h1, ?_, ?_, ?_⟩
  · intro p hp
    rw [h2 p hp, sortByFile_filter]
  · intro e he
    exact groupByFile_mem_keys _ e ((sortByFile_mem e errors).mpr he)
  · intro key hk
    rcases groupByFile_keys_sub _ key hk with ⟨x, hx, hxf⟩
    exact ⟨x, (sortByFile_mem x errors).mp hx, hxf⟩

/-- Witness for C5: two records sealed for `b.cpp` then `a.cpp`; the group
keyed `a.cpp` is the filtered subsequence of the original collection. -/
theorem C5_grouping_sorted_stable_witness :
    ("a.cpp".toList, [(⟨"a.cpp".toList, 1, 2, "m".toList, "[t]".toList, []⟩ : ErrorDescription)]).2
      = [(⟨"b.cpp".toList, 3, 4, "n".toList, "[u]".toList, []⟩ : ErrorDescription),
         ⟨"a.cpp".toList, 1, 2, "m".toList, "[t]".toList, []⟩].filter
          (fun e => e.file ==
            ("a.cpp".toList,
              [(⟨"a.cpp".toList, 1, 2, "m".toList, "[t]".toList, []⟩ : ErrorDescription)]).1) :=
  (C5_grouping_sorted_stable
      [⟨"b.cpp".toList, 3, 4, "n".toList, "[u]".toList, []⟩,
       ⟨"a.cpp".toList, 1, 2, "m".toList, "[t]".toList, []⟩]).2.1 _ (by decide)

/-- C6: the root `tests`/`errors` attribute values equal the total record
count, each group's `tests`/`errors` values equal the group's size, the
group sizes sum back to the root count, and the empty collection produces
the exact valid empty report (zero groups, zero counts) instead of failing. -/
theorem C6_counts_and_empty_report (errors : List ErrorDescription) :
    rootCount errors = errors.length
    ∧ (∀ p ∈ groupEntries errors, suiteCount p = p.2.length)
    ∧ ((groupEntries errors).map suiteCount).sum = rootCount errors
    ∧ groupEntries ([] : List ErrorDescription) = []
    ∧ print_junit_file []
      = "<?xml version=\"1.0\" encoding=\"UTF-8\" ?>\n<testsuites id=\"1\" name=\"Clang-Tidy\" tests=\"0\" errors=\"0\" failures=\"0\" time=\"0\"></testsuites>\n".toList := by
  refine ⟨rfl, fun p _ => rfl, ?_, rfl, by decide⟩
  have h1 : (groupEntries errors).map suiteCount
      = ((groupEntries errors).map Prod.snd).map List.length := by
    rw [List.map_map]
    rfl
  rw [h1, ← List.length_flatten]
  show (((groupByFile (sortByFile errors)).map Prod.snd).flatten).length = _
  rw [groupByFile_flatten]
  rw [sortByFile_length]
  rfl

/-- Witness for C6 at a one-record collection. -/
theorem C6_counts_and_empty_report_witness :
    suiteCount ("a.cpp".toList,
        [(⟨"a.cpp".toList, 1, 2, "m".toList, "[t]".toList, []⟩ : ErrorDescription)])
      = [(⟨"a.cpp".toList, 1, 2, "m".toList, "[t]".toList, []⟩ : ErrorDescription)].length :=
  (C6_counts_and_empty_report
      [⟨"a.cpp".toList, 1, 2, "m".toList, "[t]".toList, []⟩]).2.1 _ (by decide)

/-- C4 (the code at the failing input): `errors = []` is a class attribute,
so the collection survives one conversion and is seen by the next one in
the same process — a second conversion over empty input still reports the
first conversion's record (root count 1), while a fresh process state gives
root count 0. -/
theorem C4_class_attribute_persists :
    rootCount (runConvert "p".toList []
        (runConvert "p".toList ["a.cpp:1:1: m [t]\n".toList] initState)).errors = 1
    ∧ rootCount (runConvert "p".toList [] initState).errors = 0 :=
  ⟨by decide, by decide⟩

/-! ### Structure of a successful `error_regex` match -/

lemma drop_takeWhile_len (p : Char → Bool) :
    ∀ l : List Char, l.drop (l.takeWhile p).length = l.dropWhile p := by
  intro l
  induction l with
  | nil => rfl
  | cons c l ih =>
    cases hc : p c
    · simp [List.takeWhile_cons, List.dropWhile_cons, hc]
    · simp [List.takeWhile_cons, List.dropWhile_cons, hc, ih]

lemma takeWhile_drop_eq (p : Char → Bool) (l : List Char) :
    l = l.takeWhile p ++ l.drop (l.takeWhile p).length := by
  rw [drop_takeWhile_len, List.takeWhile_append_dropWhile]

lemma takeWhile_append_stop (p : Char → Bool) (y : Char) (hy : p y = false) :
    ∀ (xs r : List Char), (∀ c ∈ xs, p c = true) →
      (xs ++ y :: r).takeWhile p = xs := by
  intro xs
  induction xs with
  | nil => intro r _; simp [List.takeWhile_cons, hy]
  | cons x xs ih =>
    intro r hall
    have hx : p x = true := hall x (List.mem_cons_self x xs)
    simp only [List.cons_append, List.takeWhile_cons, hx, if_true]
    rw [ih r (fun c hc => hall c (List.mem_cons_of_mem x hc))]


lemma tagAt_build (tcs : List Char) (hne : tcs ≠ []) (hall : ∀ c ∈ tcs, isTagChar c = true) :
    tagAt ('[' :: (tcs ++ [']'])) = true := by
  have ht : (tcs ++ [']']).takeWhile isTagChar = tcs := by
    have := takeWhile_append_stop isTagChar ']' (by decide) tcs [] hall
    simpa using this
  rw [tagAt.eq_def]
  simp only [ht]
  rw [List.drop_left]
  simp [hne]

lemma splitMsgTag_sound (t msg tag : List Char) (h : splitMsgTag t = some (msg, tag)) :
    t = msg ++ ' ' :: tag ∧ msg ≠ [] ∧ tagAt tag = true := by
  rw [splitMsgTag.eq_def] at h
  split at h
  next rrest heq =>
    simp only at h
    by_cases h1 : (rrest.takeWhile isTagChar).isEmpty
    · rw [if_pos h1] at h
      cases h
    · rw [if_neg h1] at h
      split at h
      next rmsg heq2 =>
        by_cases h2 : rmsg.isEmpty
        · rw [if_pos h2] at h
          cases h
        · rw [if_neg h2] at h
          by_cases h3 : rmsg.any (· = '\n')
          · rw [if_pos h3] at h
            cases h
          · rw [if_neg h3] at h
            have hpair := Option.some.inj h
            have hmsg : msg = rmsg.reverse := (congrArg Prod.fst hpair).symm
            have htag : tag = '[' :: (List.reverse (rrest.takeWhile isTagChar) ++ [']']) :=
              (congrArg Prod.snd hpair).symm
            have hall : ∀ c ∈ (rrest.takeWhile isTagChar).reverse, isTagChar c = true := by
              intro c hc
              exact List.mem_takeWhile_imp (List.mem_reverse.mp hc)
            have hne : (rrest.takeWhile isTagChar).reverse ≠ [] := by
              intro hh
              apply h1
              simpa using congrArg List.reverse hh
            have hmne : msg ≠ [] := by
              rw [hmsg]
              intro hh
              apply h2
              have hrm : rmsg = [] := by simpa using congrArg List.reverse hh
              simp [hrm]
            refine ⟨?_, hmne, by rw [htag]; exact tagAt_build _ hne hall⟩
            -- t reconstruction
            have hr : rrest = rrest.takeWhile isTagChar ++ ('[' :: ' ' :: rmsg) := by
              conv_lhs => rw [takeWhile_drop_eq isTagChar rrest]
              rw [heq2]
            have ht : t = (']' :: rrest).reverse := by
              rw [← heq]
              simp
            rw [ht, hr, hmsg, htag]
            simp [List.reverse_cons, List.reverse_append]
      next => cases h
  next => cases h

lemma error_regex_match_sound (line : List Char) (g : HeaderGroups)
    (h : error_regex_match line = some g) :
    stripNl line
      = g.path ++ ':' :: (g.lineNo ++ ':' :: (g.colNo ++ ':' :: ' ' :: (g.msg ++ ' ' :: g.tag)))
    ∧ g.path ≠ [] ∧ (∀ c ∈ g.path, isPathChar c = true)
    ∧ g.lineNo ≠ [] ∧ (∀ c ∈ g.lineNo, c.isDigit = true)
    ∧ g.colNo ≠ [] ∧ (∀ c ∈ g.colNo, c.isDigit = true)
    ∧ g.msg ≠ [] ∧ tagAt g.tag = true := by
  rw [error_regex_match.eq_def] at h
  by_cases h1 : ((stripNl line).takeWhile isPathChar).isEmpty
  · rw [if_pos h1] at h; cases h
  · rw [if_neg h1] at h
    split at h
    next r1 heq1 =>
      by_cases h2 : (r1.takeWhile Char.isDigit).isEmpty
      · rw [if_pos h2] at h; cases h
      · rw [if_neg h2] at h
        split at h
        next r2 heq2 =>
          by_cases h3 : (r2.takeWhile Char.isDigit).isEmpty
          · rw [if_pos h3] at h; cases h
          · rw [if_neg h3] at h
            split at h
            next rest heq3 =>
              split at h
              next msg tag heq4 =>
                have hg := Option.some.inj h
                subst hg
                dsimp only
                rcases splitMsgTag_sound rest msg tag heq4 with ⟨hrest, hmne, htag⟩
                have hr2 : r2 = r2.takeWhile Char.isDigit ++ ':' :: ' ' :: (msg ++ ' ' :: tag) := by
                  conv_lhs => rw [takeWhile_drop_eq Char.isDigit r2]
                  rw [heq3, hrest]
                have hr1 : r1 = r1.takeWhile Char.isDigit
                    ++ ':' :: (r2.takeWhile Char.isDigit ++ ':' :: ' ' :: (msg ++ ' ' :: tag)) := by
                  conv_lhs => rw [takeWhile_drop_eq Char.isDigit r1]
                  rw [heq2]
                  rw [← hr2]
                refine ⟨?_, ?_, ?_, ?_, ?_, ?_, ?_, hmne, htag⟩
                · conv_lhs =>
                    rw [takeWhile_drop_eq isPathChar (stripNl line)]
                    rw [heq1]
                    rw [hr1]
                · simpa [List.isEmpty_iff] using h1
                · intro c hc; exact List.mem_takeWhile_imp hc
                · simpa [List.isEmpty_iff] using h2
                · intro c hc; exact List.mem_takeWhile_imp hc
                · simpa [List.isEmpty_iff] using h3
                · intro c hc; exact List.mem_takeWhile_imp hc
              next heq4 => cases h
            next => cases h
        next => cases h
    next => cases h

lemma tagFound_append (pre t : List Char) (h : tagAt t = true) :
    tagFound (pre ++ t) = true := by
  induction pre with
  | nil =>
    cases t with
    | nil => rw [tagAt.eq_def] at h; cases h
    | cons c r => simpa [tagFound] using Or.inl h
  | cons x pre ih => simpa [tagFound] using Or.inr ih

lemma start_found_append (pre t : List Char) (h : locAt t = true) :
    start_found (pre ++ t) = true := by
  induction pre with
  | nil =>
    cases t with
    | nil => rw [locAt.eq_def] at h; cases h
    | cons c r => simpa [start_found] using Or.inl h
  | cons x pre ih => simpa [start_found] using Or.inr ih

lemma locAt_build (d1 d2 w : List Char) (h1 : d1 ≠ []) (hd1 : ∀ c ∈ d1, c.isDigit = true)
    (h2 : d2 ≠ []) (hd2 : ∀ c ∈ d2, c.isDigit = true) :
    locAt (':' :: (d1 ++ ':' :: (d2 ++ ':' :: w))) = true := by
  have ht1 : (d1 ++ ':' :: (d2 ++ ':' :: w)).takeWhile Char.isDigit = d1 :=
    takeWhile_append_stop Char.isDigit ':' (by decide) d1 _ hd1
  have ht2 : (d2 ++ ':' :: w).takeWhile Char.isDigit = d2 :=
    takeWhile_append_stop Char.isDigit ':' (by decide) d2 _ hd2
  rw [locAt.eq_def]
  simp only [ht1]
  rw [List.drop_left]
  simp only [ht2]
  rw [List.drop_left]
  simp [h1, h2]

lemma stripNl_cases (l : List Char) : l = stripNl l ∨ l = stripNl l ++ ['\n'] := by
  unfold stripNl
  by_cases h : l.getLast? = some '\n'
  · right
    rw [if_pos h]
    have hne : l ≠ [] := by
      intro he
      rw [he] at h
      cases h
    have hg : l.getLast hne = '\n' := by
      have := List.getLast?_eq_getLast l hne
      rw [h] at this
      exact (Option.some.inj this).symm
    conv_lhs => rw [← List.dropLast_append_getLast hne]
    rw [hg]
  · left
    rw [if_neg h]

lemma header_implies_gate (line : List Char) (g : HeaderGroups)
    (h : error_regex_match line = some g) : main_error_identifier_search8 line = true := by
  rcases error_regex_match_sound line g h with
    ⟨hbody, hp, _, hl1, _, hc1, _, hm, htag⟩
  unfold main_error_identifier_search8
  have hform : stripNl line
      = (g.path ++ ':' :: (g.lineNo ++ ':' :: (g.colNo ++ ':' :: ' ' :: (g.msg ++ [' '])))) ++ g.tag := by
    rw [hbody]
    simp
  rw [hform]
  have hlen : 8 ≤ (g.path ++ ':' :: (g.lineNo ++ ':' :: (g.colNo ++ ':' :: ' ' :: (g.msg ++ [' '])))).length := by
    have e1 : 1 ≤ g.path.length := List.length_pos.mpr hp
    have e2 : 1 ≤ g.lineNo.length := List.length_pos.mpr hl1
    have e3 : 1 ≤ g.colNo.length := List.length_pos.mpr hc1
    have e4 : 1 ≤ g.msg.length := List.length_pos.mpr hm
    simp only [List.length_append, List.length_cons]
    omega
  rw [List.drop_append_of_le_length hlen]
  exact tagFound_append _ _ htag

lemma header_implies_file_related (line : List Char) (g : HeaderGroups)
    (h : error_regex_match line = some g) : start_found line = true := by
  rcases error_regex_match_sound line g h with
    ⟨hbody, _, _, hl1, hld, hc1, hcd, _, _⟩
  rcases stripNl_cases line with hc | hc
  · rw [hc, hbody]
    exact start_found_append _ _ (locAt_build _ _ _ hl1 hld hc1 hcd)
  · rw [hc, hbody]
    have hre : (g.path ++ ':' :: (g.lineNo ++ ':' :: (g.colNo ++ ':' :: ' ' :: (g.msg ++ ' ' :: g.tag)))) ++ ['\n']
        = g.path ++ ':' :: (g.lineNo ++ ':' :: (g.colNo ++ ':' :: ((' ' :: (g.msg ++ ' ' :: g.tag)) ++ ['\n']))) := by
      simp
    rw [hre]
    exact start_found_append _ _ (locAt_build _ _ _ hl1 hld hc1 hcd)

lemma header_digits (line : List Char) (g : HeaderGroups)
    (h : error_regex_match line = some g) :
    pyInt g.lineNo = some (digitsToNat g.lineNo 0)
    ∧ pyInt g.colNo = some (digitsToNat g.colNo 0) := by
  rcases error_regex_match_sound line g h with
    ⟨_, _, _, hl1, hld, hc1, hcd, _, _⟩
  constructor
  · unfold pyInt
    rw [if_pos]
    simp only [Bool.and_eq_true, Bool.not_eq_eq_eq_not, Bool.not_false]
    exact ⟨by simpa [List.isEmpty_iff] using hl1, List.all_eq_true.mpr hld⟩
  · unfold pyInt
    rw [if_pos]
    simp only [Bool.and_eq_true, Bool.not_eq_eq_eq_not, Bool.not_false]
    exact ⟨by simpa [List.isEmpty_iff] using hc1, List.all_eq_true.mpr hcd⟩

lemma process_error_spec (b : List Char) (st : ConvState) (arr : List (List Char)) :
    ∃ st2, process_error b st arr = some st2
      ∧ st2.errors.length = st.errors.length + sealN arr := by
  cases arr with
  | nil => exact ⟨st, rfl, by simp [sealN]⟩
  | cons first rest =>
    cases hm : error_regex_match first with
    | none =>
      refine ⟨{ st with warnings := st.warnings ++ [first :: rest] }, ?_, ?_⟩
      · simp [process_error, hm]
      · simp [sealN, hm]
    | some g =>
      rcases header_digits first g hm with ⟨h1, h2⟩
      refine ⟨{ st with errors := st.errors ++
          [⟨pyReplace g.path b, digitsToNat g.lineNo 0, digitsToNat g.colNo 0, g.msg, g.tag,
            List.intercalate ['\n'] rest⟩] }, ?_, ?_⟩
      · simp [process_error, hm, h1, h2]
      · simp [sealN, hm]

lemma sealN_append (cur : List (List Char)) (l : List Char) (h : cur ≠ []) :
    sealN (cur ++ [l]) = sealN cur := by
  cases cur with
  | nil => exact absurd rfl h
  | cons c t => rfl

lemma countHeaders_cons (l : List Char) (rest : List (List Char)) :
    countHeaders (l :: rest) = (if isHeaderLine l then 1 else 0) + countHeaders rest := by
  simp [countHeaders, List.countP_cons]
  cases h : isHeaderLine l
  all_goals simp [h]
  all_goals omega

lemma not_header_of_gate_false (line : List Char)
    (h : main_error_identifier_search8 line = false) : isHeaderLine line = false := by
  cases hh : isHeaderLine line
  · rfl
  · exfalso
    rcases Option.isSome_iff_exists.mp hh with ⟨g, hg⟩
    rw [header_implies_gate line g hg] at h
    cases h

lemma not_header_of_start_false (line : List Char)
    (h : start_found line = false) : isHeaderLine line = false := by
  cases hh : isHeaderLine line
  · rfl
  · exfalso
    rcases Option.isSome_iff_exists.mp hh with ⟨g, hg⟩
    rw [header_implies_file_related line g hg] at h
    cases h

lemma sealN_single (line : List Char) :
    sealN [line] = if isHeaderLine line then 1 else 0 := rfl

lemma convertLoop_spec (b : List Char) :
    ∀ (lines cur : List (List Char)) (st : ConvState),
      ∃ cur2 st2, convertLoop b lines cur st = some (cur2, st2)
        ∧ st2.errors.length + sealN cur2
          = st.errors.length + sealN cur + countHeaders lines := by
  intro lines
  induction lines with
  | nil => intro cur st; exact ⟨cur, st, rfl, by simp [countHeaders]⟩
  | cons line rest ih =>
    intro cur st
    rw [countHeaders_cons]
    cases hs : start_found line
    · have hnh : isHeaderLine line = false := not_header_of_start_false line hs
      have hif : (if isHeaderLine line then 1 else 0 : Nat) = 0 := by simp [hnh]
      rw [hif]
      by_cases hc : cur.length > 0
      · rcases ih (cur ++ [line]) st with ⟨cur2, st2, hloop, hlen⟩
        have hcur : cur ≠ [] := by
          intro he
          rw [he] at hc
          simp at hc
        refine ⟨cur2, st2, ?_, ?_⟩
        · simp only [convertLoop, hs, hc]
          simpa using hloop
        · rw [sealN_append cur line hcur] at hlen
          omega
      · rcases ih cur st with ⟨cur2, st2, hloop, hlen⟩
        refine ⟨cur2, st2, ?_, ?_⟩
        · simp only [convertLoop, hs, hc]
          simpa using hloop
        · omega
    · cases hg : main_error_identifier_search8 line
      · have hnh : isHeaderLine line = false := not_header_of_gate_false line hg
        have hif : (if isHeaderLine line then 1 else 0 : Nat) = 0 := by simp [hnh]
        rw [hif]
        rcases ih (cur ++ [line]) st with ⟨cur2, st2, hloop, hlen⟩
        refine ⟨cur2, st2, ?_, ?_⟩
        · simp only [convertLoop, hs, hg]
          simpa using hloop
        · cases hcur : cur with
          | nil =>
            rw [hcur] at hlen
            simp only [List.nil_append, sealN_single, hnh] at hlen
            have hz : sealN ([] : List (List Char)) = 0 := rfl
            rw [hz]
            simp only [Bool.false_eq_true, if_false] at hlen
            omega
          | cons c t =>
            rw [hcur] at hlen
            rw [sealN_append (c :: t) line (by simp)] at hlen
            omega
      · rcases process_error_spec b st cur with ⟨stm, hpe, hpelen⟩
        rcases ih [line] stm with ⟨cur2, st2, hloop, hlen⟩
        refine ⟨cur2, st2, ?_, ?_⟩
        · simp only [convertLoop, hs, hg, hpe]
          simpa using hloop
        · rw [sealN_single] at hlen
          omega

lemma convert_spec (b : List Char) (lines : List (List Char)) (st : ConvState) :
    ∃ st2, convert b lines st = some st2
      ∧ st2.errors.length = st.errors.length + countHeaders lines := by
  rcases convertLoop_spec b lines [] st with ⟨cur2, st2, hloop, hlen⟩
  unfold convert
  rw [hloop]
  by_cases hc : cur2.length > 0
  · rcases process_error_spec b st2 cur2 with ⟨st3, hpe, hpl⟩
    refine ⟨st3, by simp [hc, hpe], ?_⟩
    have h0 : sealN ([] : List (List Char)) = 0 := rfl
    omega
  · have hnil : cur2 = [] := by
      cases cur2 with
      | nil => rfl
      | cons c t => simp at hc
    subst hnil
    refine ⟨st2, by simp [hc], ?_⟩
    have h0 : sealN ([] : List (List Char)) = 0 := rfl
    omega

lemma runConvert_errors_length (b : List Char) (lines : List (List Char)) (st : ConvState) :
    (runConvert b lines st).errors.length = st.errors.length + countHeaders lines := by
  rcases convert_spec b lines st with ⟨st2, h, hl⟩
  rw [runConvert, h]
  simpa using hl

/-- C1 (amended): a file-related line seals the pending sequence and opens a
new one exactly when the bracket-tag search from offset 8 succeeds, and every
line matching the full header pattern passes that gate; consequently, for all
inputs and any starting state, the number of sealed records equals the number
of input lines matching the full header pattern.  Sealed sequences whose first
line fails re-validation are dropped and do not enter this count (they need
not be zero). -/
theorem C1_sealed_records_eq_full_header_count (b : List Char) (lines : List (List Char))
    (st : ConvState) :
    (runConvert b lines st).errors.length = st.errors.length + countHeaders lines
    ∧ ∀ l : List Char, isHeaderLine l = true → opensNew l = true := by
  refine ⟨runConvert_errors_length b lines st, ?_⟩
  intro l hl
  rcases Option.isSome_iff_exists.mp hl with ⟨g, hg⟩
  unfold opensNew
  rw [header_implies_file_related l g hg, header_implies_gate l g hg]
  rfl

/-- Witness for C1 at a one-header input. -/
theorem C1_witness :
    (runConvert "p".toList ["a.cpp:1:2: m [t]\n".toList] initState).errors.length
      = initState.errors.length + countHeaders ["a.cpp:1:2: m [t]\n".toList]
    ∧ opensNew "a.cpp:1:2: m [t]\n".toList = true :=
  ⟨(C1_sealed_records_eq_full_header_count "p".toList ["a.cpp:1:2: m [t]\n".toList] initState).1,
   (C1_sealed_records_eq_full_header_count "p".toList ["a.cpp:1:2: m [t]\n".toList] initState).2
     ("a.cpp:1:2: m [t]\n".toList) (by decide)⟩

/-- C1 counterexample: the single line `:1:2: x` is file-related, opens no
diagnostic, is accumulated, and its seal fails re-validation: one dropped
sequence (warning logged), zero records, zero full-header lines.  So the
number of sealed sequences failing re-validation is 1, not 0, and records (0)
is not headers (0) minus failures (1). -/
theorem C1_counterexample :
    (runConvert "p".toList [":1:2: x\n".toList] initState).errors = []
    ∧ (runConvert "p".toList [":1:2: x\n".toList] initState).warnings.length = 1
    ∧ countHeaders [":1:2: x\n".toList] = 0 :=
  ⟨by decide, by decide, by decide⟩

/-- C8: sealing a pending sequence whose first line does not re-match the
header pattern logs one warning, appends no record, leaves the state otherwise
unchanged (the run continues — `process_error` returns normally), and a record
without a matching header line is never constructed: with no header-matching
line in the input the output collection is empty. -/
theorem C8_unparseable_header_drop (b : List Char) (st : ConvState)
    (first : List Char) (rest : List (List Char)) (h : error_regex_match first = none) :
    process_error b st (first :: rest)
      = some { st with warnings := st.warnings ++ [first :: rest] }
    ∧ ∀ lines : List (List Char), (∀ l ∈ lines, error_regex_match l = none) →
        (runConvert b lines initState).errors = [] := by
  constructor
  · simp [process_error, h]
  · intro lines hall
    have hz : countHeaders lines = 0 := by
      unfold countHeaders
      rw [List.countP_eq_zero]
      intro l hl
      simp [isHeaderLine, hall l hl]
    have hmain := runConvert_errors_length b lines initState
    rw [hz] at hmain
    have hlen : (runConvert b lines initState).errors.length = 0 := by
      simpa [initState, errorsInit] using hmain
    exact List.eq_nil_of_length_eq_zero hlen

/-- Witness for C8 at the file-related non-header line `:1:2: x`. -/
theorem C8_witness :
    process_error "p".toList initState [":1:2: x\n".toList]
      = some { initState with warnings := initState.warnings ++ [[":1:2: x\n".toList]] }
    ∧ (runConvert "p".toList [":1:2: x\n".toList] initState).errors = [] :=
  ⟨(C8_unparseable_header_drop "p".toList initState (":1:2: x\n".toList) [] (by decide)).1,
   (C8_unparseable_header_drop "p".toList initState (":1:2: x\n".toList) [] (by decide)).2
     [":1:2: x\n".toList] (by decide)⟩

/-- C9 (amended): when a sealed sequence's first line matches the header
pattern, the line/column captures are nonempty digit strings, so `int()`
always succeeds — `process_error` and the whole conversion never hit the
fatal malformed-numeric branch; the resulting fields are well-defined
natural numbers (they can be 0, since `\d+` admits `0`). -/
theorem C9_numeric_conversion_total (line : List Char) (g : HeaderGroups)
    (h : error_regex_match line = some g) :
    pyInt g.lineNo = some (digitsToNat g.lineNo 0)
    ∧ pyInt g.colNo = some (digitsToNat g.colNo 0)
    ∧ (∀ (b : List Char) (st : ConvState) (arr : List (List Char)),
        (process_error b st arr).isSome = true)
    ∧ ∀ (b : List Char) (lines : List (List Char)) (st : ConvState),
        (convert b lines st).isSome = true := by
  rcases header_digits line g h with ⟨h1, h2⟩
  refine ⟨h1, h2, ?_, ?_⟩
  · intro b st arr
    rcases process_error_spec b st arr with ⟨st2, hpe, _⟩
    simp [hpe]
  · intro b lines st
    rcases convert_spec b lines st with ⟨st2, hc, _⟩
    simp [hc]

/-- Witness for C9 at the header `a.cpp:1:2: m [t]`. -/
theorem C9_witness :
    pyInt "1".toList = some (digitsToNat "1".toList 0)
    ∧ pyInt "2".toList = some (digitsToNat "2".toList 0)
    ∧ (process_error "p".toList initState []).isSome = true
    ∧ (convert "p".toList [] initState).isSome = true := by
  have h := C9_numeric_conversion_total ("a.cpp:1:2: m [t]\n".toList)
    ⟨"a.cpp".toList, "1".toList, "2".toList, "m".toList, "[t]".toList⟩ (by decide)
  exact ⟨h.1, h.2.1, h.2.2.1 "p".toList initState [], h.2.2.2 "p".toList [] initState⟩

/-- C9 counterexample: the header `a.cpp:0:1: m [t]` matches the pattern and
yields a record whose `line` field is 0 — not a positive integer. -/
theorem C9_counterexample :
    (runConvert "x".toList ["a.cpp:0:1: m [t]\n".toList] initState).errors.map
      (fun e => e.line) = [0] := by decide

lemma convertLoop_append_nonopening (b : List Char) :
    ∀ (mid rest cur : List (List Char)) (st : ConvState),
      cur ≠ [] → (∀ l ∈ mid, opensNew l = false) →
      convertLoop b (mid ++ rest) cur st = convertLoop b rest (cur ++ mid) st := by
  intro mid
  induction mid with
  | nil => intro rest cur st _ _; simp
  | cons l mid ih =>
    intro rest cur st hcur hall
    have hl : opensNew l = false := hall l (List.mem_cons_self l mid)
    have hmid : ∀ x ∈ mid, opensNew x = false := fun x hx => hall x (List.mem_cons_of_mem l hx)
    have happ : (cur ++ [l]) ++ mid = cur ++ l :: mid := by simp
    cases hs : start_found l
    · have hc : cur.length > 0 := List.length_pos.mpr hcur
      calc convertLoop b ((l :: mid) ++ rest) cur st
          = convertLoop b (mid ++ rest) (cur ++ [l]) st := by
            simp [convertLoop, hs, hc]
        _ = convertLoop b rest ((cur ++ [l]) ++ mid) st := ih rest (cur ++ [l]) st (by simp) hmid
        _ = convertLoop b rest (cur ++ l :: mid) st := by rw [happ]
    · have hg : main_error_identifier_search8 l = false := by
        have h' := hl
        unfold opensNew at h'
        rw [hs] at h'
        simpa using h'
      calc convertLoop b ((l :: mid) ++ rest) cur st
          = convertLoop b (mid ++ rest) (cur ++ [l]) st := by
            simp [convertLoop, hs, hg]
        _ = convertLoop b rest ((cur ++ [l]) ++ mid) st := ih rest (cur ++ [l]) st (by simp) hmid
        _ = convertLoop b rest (cur ++ l :: mid) st := by rw [happ]

/-- C2 (amended): the `detail` of a sealed record is the raw input lines
following its header up to (but not including) the next line that opens a
diagnostic, joined by an extra newline.  The raw lines keep their own trailing
newlines (Python line iteration yields them with terminators), and blank or
banner lines between two headers are included, since once a diagnostic is open
every non-opening line is appended. -/
theorem C2_detail_is_raw_following_lines (b : List Char) (h1 h2 : List Char)
    (mid1 mid2 : List (List Char)) (g1 g2 : HeaderGroups)
    (hh1 : error_regex_match h1 = some g1) (hh2 : error_regex_match h2 = some g2)
    (hm1 : ∀ l ∈ mid1, opensNew l = false) (hm2 : ∀ l ∈ mid2, opensNew l = false) :
    (runConvert b (h1 :: (mid1 ++ h2 :: mid2)) initState).errors
      = [⟨pyReplace g1.path b, digitsToNat g1.lineNo 0, digitsToNat g1.colNo 0, g1.msg, g1.tag,
          List.intercalate ['\n'] mid1⟩,
         ⟨pyReplace g2.path b, digitsToNat g2.lineNo 0, digitsToNat g2.colNo 0, g2.msg, g2.tag,
          List.intercalate ['\n'] mid2⟩] := by
  have hs1 := header_implies_file_related h1 g1 hh1
  have hg1 := header_implies_gate h1 g1 hh1
  have hs2 := header_implies_file_related h2 g2 hh2
  have hg2 := header_implies_gate h2 g2 hh2
  rcases header_digits h1 g1 hh1 with ⟨hd1a, hd1b⟩
  rcases header_digits h2 g2 hh2 with ⟨hd2a, hd2b⟩
  have e1 : convert b (h1 :: (mid1 ++ h2 :: mid2)) initState
      = some ⟨[⟨pyReplace g1.path b, digitsToNat g1.lineNo 0, digitsToNat g1.colNo 0, g1.msg,
                g1.tag, List.intercalate ['\n'] mid1⟩,
               ⟨pyReplace g2.path b, digitsToNat g2.lineNo 0, digitsToNat g2.colNo 0, g2.msg,
                g2.tag, List.intercalate ['\n'] mid2⟩], []⟩ := by
    unfold convert
    have l1 : convertLoop b (h1 :: (mid1 ++ h2 :: mid2)) [] initState
        = convertLoop b (mid1 ++ h2 :: mid2) [h1] initState := by
      simp [convertLoop, hs1, hg1, process_error]
    rw [l1]
    rw [convertLoop_append_nonopening b mid1 (h2 :: mid2) [h1] initState (by simp) hm1]
    have hpe1 : process_error b initState (h1 :: mid1)
        = some ⟨[⟨pyReplace g1.path b, digitsToNat g1.lineNo 0, digitsToNat g1.colNo 0, g1.msg,
                  g1.tag, List.intercalate ['\n'] mid1⟩], []⟩ := by
      simp [process_error, hh1, hd1a, hd1b, initState, errorsInit]
    have l2 : convertLoop b (h2 :: mid2) ([h1] ++ mid1) initState
        = convertLoop b mid2 [h2]
            ⟨[⟨pyReplace g1.path b, digitsToNat g1.lineNo 0, digitsToNat g1.colNo 0, g1.msg,
               g1.tag, List.intercalate ['\n'] mid1⟩], []⟩ := by
      simp [convertLoop, hs2, hg2, hpe1]
    rw [l2]
    have l3 : convertLoop b mid2 [h2]
        (⟨[⟨pyReplace g1.path b, digitsToNat g1.lineNo 0, digitsToNat g1.colNo 0, g1.msg,
            g1.tag, List.intercalate ['\n'] mid1⟩], []⟩ : ConvState)
        = some ((h2 :: mid2),
            ⟨[⟨pyReplace g1.path b, digitsToNat g1.lineNo 0, digitsToNat g1.colNo 0, g1.msg,
               g1.tag, List.intercalate ['\n'] mid1⟩], []⟩) := by
      have hacc := convertLoop_append_nonopening b mid2 []
        [h2] (⟨[⟨pyReplace g1.path b, digitsToNat g1.lineNo 0, digitsToNat g1.colNo 0, g1.msg,
                 g1.tag, List.intercalate ['\n'] mid1⟩], []⟩ : ConvState) (by simp) hm2
      simpa [convertLoop] using hacc
    rw [l3]
    have hpe2 : process_error b
        (⟨[⟨pyReplace g1.path b, digitsToNat g1.lineNo 0, digitsToNat g1.colNo 0, g1.msg,
            g1.tag, List.intercalate ['\n'] mid1⟩], []⟩ : ConvState) (h2 :: mid2)
        = some ⟨[⟨pyReplace g1.path b, digitsToNat g1.lineNo 0, digitsToNat g1.colNo 0, g1.msg,
                  g1.tag, List.intercalate ['\n'] mid1⟩,
                 ⟨pyReplace g2.path b, digitsToNat g2.lineNo 0, digitsToNat g2.colNo 0, g2.msg,
                  g2.tag, List.intercalate ['\n'] mid2⟩], []⟩ := by
      simp [process_error, hh2, hd2a, hd2b]
    simp [hpe2]
  rw [runConvert, e1]
  rfl

/-- Witness for C2 at the spec's scenario (prefix `foo/`, two indented lines
and a blank line between two headers). -/
theorem C2_witness :
    (runConvert "foo/".toList
        ("foo/bar.cpp:10:5: variable unused [unused-var]\n".toList ::
          (["  v1\n".toList, "  v2\n".toList, "\n".toList] ++
            "foo/bar.cpp:20:1: missing return [missing-return]\n".toList :: []))
        initState).errors
      = [⟨pyReplace "foo/bar.cpp".toList "foo/".toList, digitsToNat "10".toList 0,
          digitsToNat "5".toList 0, "variable unused".toList, "[unused-var]".toList,
          List.intercalate ['\n'] ["  v1\n".toList, "  v2\n".toList, "\n".toList]⟩,
         ⟨pyReplace "foo/bar.cpp".toList "foo/".toList, digitsToNat "20".toList 0,
          digitsToNat "1".toList 0, "missing return".toList, "[missing-return]".toList,
          List.intercalate ['\n'] ([] : List (List Char))⟩] :=
  C2_detail_is_raw_following_lines "foo/".toList
    ("foo/bar.cpp:10:5: variable unused [unused-var]\n".toList)
    ("foo/bar.cpp:20:1: missing return [missing-return]\n".toList)
    ["  v1\n".toList, "  v2\n".toList, "\n".toList] []
    ⟨"foo/bar.cpp".toList, "10".toList, "5".toList, "variable unused".toList,
      "[unused-var]".toList⟩
    ⟨"foo/bar.cpp".toList, "20".toList, "1".toList, "missing return".toList,
      "[missing-return]".toList⟩
    (by decide) (by decide) (by decide) (by decide)

/-- C2 counterexample: in the spec's scenario the first record's detail is
`"  v1\n\n  v2\n\n\n"` — the blank banner line is included and every line
keeps its own newline plus the join newline — not the two indented lines
joined by a single newline. -/
theorem C2_counterexample :
    (runConvert "foo/".toList
        ["foo/bar.cpp:10:5: variable unused [unused-var]\n".toList,
         "  v1\n".toList, "  v2\n".toList, "\n".toList,
         "foo/bar.cpp:20:1: missing return [missing-return]\n".toList] initState).errors.map
      (fun e => e.description)
      = ["  v1\n\n  v2\n\n\n".toList, ([] : List Char)]
    ∧ "  v1\n\n  v2\n\n\n".toList ≠ "  v1\n  v2".toList :=
  ⟨by decide, by decide⟩

lemma tagAt_sound (l : List Char) (h : tagAt l = true) :
    ∃ tcs, l = '[' :: (tcs ++ [']']) ∧ tcs ≠ [] ∧ ∀ c ∈ tcs, isTagChar c = true := by
  rw [tagAt.eq_def] at h
  split at h
  next rest =>
    simp only [Bool.and_eq_true, Bool.not_eq_eq_eq_not, Bool.not_false, beq_iff_eq] at h
    rcases h with ⟨hne, hdrop⟩
    refine ⟨rest.takeWhile isTagChar, ?_, by simpa [List.isEmpty_iff] using hne,
      fun c hc => List.mem_takeWhile_imp hc⟩
    have hr : rest = rest.takeWhile isTagChar ++ [']'] := by
      conv_lhs => rw [takeWhile_drop_eq isTagChar rest]
      rw [hdrop]
    rw [← hr]
  next => cases h

lemma tagAt_head_ne (c : Char) (rest : List Char) (hc : c ≠ '[') :
    tagAt (c :: rest) = false := by
  rw [tagAt.eq_def]
  split
  next r heq =>
    exfalso
    apply hc
    exact (List.cons.injEq _ _ _ _ ▸ heq).1
  next => rfl

lemma tagAt_drop_false (l : List Char) (h : tagAt l = true) :
    ∀ m, 1 ≤ m → tagAt (l.drop m) = false := by
  rcases tagAt_sound l h with ⟨tcs, rfl, hne, hall⟩
  intro m hm
  have hdd : ('[' :: (tcs ++ [']'])).drop m = (tcs ++ [']']).drop (m - 1) := by
    cases m with
    | zero => omega
    | succ n => simp
  rw [hdd]
  cases hd : (tcs ++ [']']).drop (m - 1) with
  | nil => rfl
  | cons c r =>
    have hcmem : c ∈ tcs ++ [']'] := by
      have : c ∈ (tcs ++ [']']).drop (m - 1) := by rw [hd]; exact List.mem_cons_self c r
      exact List.mem_of_mem_drop this
    have hcne : c ≠ '[' := by
      rcases List.mem_append.mp hcmem with hc | hc
      · intro he
        have := hall c hc
        rw [he] at this
        cases this
      · rcases List.mem_singleton.mp hc with rfl
        decide
    exact tagAt_head_ne c r hcne

lemma tagFound_iff (l : List Char) :
    tagFound l = true ↔ ∃ n, tagAt (l.drop n) = true := by
  induction l with
  | nil =>
    simp only [tagFound, List.drop_nil]
    constructor
    · intro h; cases h
    · rintro ⟨n, hn⟩
      rw [tagAt.eq_def] at hn
      cases hn
  | cons c rest ih =>
    simp only [tagFound, Bool.or_eq_true, ih]
    constructor
    · rintro (h | ⟨n, hn⟩)
      · exact ⟨0, by simpa using h⟩
      · exact ⟨n + 1, by simpa using hn⟩
    · rintro ⟨n, hn⟩
      cases n with
      | zero => left; simpa using hn
      | succ n => right; exact ⟨n, by simpa using hn⟩

/-- C10: `main_error_identifier.search(line, re.M)` starts at offset 8
(`re.M == 8` is passed as `pos`), and the end-anchored bracket tag of a line
is unique; so a file-related line whose trailing bracket tag begins before
offset 8 never opens a new diagnostic — in the loop it is appended to the
currently accumulating sequence instead. -/
theorem C10_tag_before_offset8_is_continuation (line : List Char) (s : Nat)
    (hs8 : s < 8) (htag : tagAt ((stripNl line).drop s) = true) :
    main_error_identifier_search8 line = false
    ∧ ∀ (b : List Char) (rest cur : List (List Char)) (st : ConvState),
        start_found line = true →
        convertLoop b (line :: rest) cur st = convertLoop b rest (cur ++ [line]) st := by
  have hfalse : main_error_identifier_search8 line = false := by
    unfold main_error_identifier_search8
    cases hf : tagFound ((stripNl line).drop 8)
    · rfl
    · exfalso
      rcases (tagFound_iff _).mp hf with ⟨n, hn⟩
      rw [List.drop_drop] at hn
      have hbad := tagAt_drop_false _ htag (8 + n - s) (by omega)
      rw [List.drop_drop] at hbad
      have harith : s + (8 + n - s) = 8 + n := by omega
      rw [harith] at hbad
      rw [hbad] at hn
      cases hn
  refine ⟨hfalse, ?_⟩
  intro b rest cur st hsf
  simp [convertLoop, hsf, hfalse]

/-- Witness for C10 at the line `a:1:2: [x]`, whose tag begins at offset 7. -/
theorem C10_witness :
    main_error_identifier_search8 "a:1:2: [x]\n".toList = false
    ∧ convertLoop "p".toList ["a:1:2: [x]\n".toList] [] initState
      = convertLoop "p".toList [] ([] ++ ["a:1:2: [x]\n".toList]) initState :=
  ⟨(C10_tag_before_offset8_is_continuation "a:1:2: [x]\n".toList 7 (by omega) (by decide)).1,
   (C10_tag_before_offset8_is_continuation "a:1:2: [x]\n".toList 7 (by omega) (by decide)).2
     "p".toList [] [] initState (by decide)⟩
